import Mathlib

/-!
Shallow embedding of `BoxPacker.py` (and the `greedy` baseline of `Benchmark.py`).

Conventions of the embedding:
* Python `int` is modelled as `Int`.
* A `ValueError` raised by a function is modelled by returning `Except ValueErr`,
  with a constructor per raise site carrying the offending value.
* Python objects are modelled as immutable Lean values; an in-place mutation of a
  list element (`boxes[0].add_article(...)`) is modelled by `List.set` at the
  mutated index.
* Python's stable sort `sorted(xs, key=k, reverse=True)` is modelled by
  `List.insertionSort (fun a b => k b ≤ k a)`, which is likewise a stable sort for
  the same total preorder, hence extensionally the same function.
* The `heapq` module functions used by the source (`heapify`, `heappush`,
  `heappop` and their helpers `_siftup`, `_siftdown`) are translated from the
  CPython implementation.  Their `while` loops are expressed with an explicit
  fuel argument that is always instantiated with an upper bound on the number of
  iterations (proved sufficient in the lemmas below), so that all definitions
  stay executable by the kernel.
-/

/-- Model of `Article`: an article with a positive integer weight in grams. -/
structure Article where
  weight_in_grams : Int
deriving DecidableEq, Repr, Inhabited

/-- Error values for the two `raise ValueError(...)` sites of `BoxPacker.py`. -/
inductive ValueErr where
  /-- Raised by `Article.__init__` when the weight is not positive. -/
  | invalidArticleWeight (weight_in_grams : Int) : ValueErr
  /-- Raised by `BoxPacker.pack` when the number of boxes is not positive. -/
  | invalidNumberOfBoxes (number_of_boxes : Int) : ValueErr
deriving DecidableEq, Repr

/-- Model of `Article.__init__`: validates that the weight is positive, otherwise
raises `ValueError`. -/
def mkArticle (weight_in_grams : Int) : Except ValueErr Article :=
  if weight_in_grams > 0 then .ok ⟨weight_in_grams⟩
  else .error (.invalidArticleWeight weight_in_grams)

/-- Model of `Box`: a list of articles together with the cached total weight
(`__box_items`, `__total_weight_in_grams`). -/
structure Box where
  box_items : List Article
  total_weight_in_grams : Int
deriving DecidableEq, Repr, Inhabited

/-- Model of `Box.__init__`: stores the items and computes the total weight once
as the sum of the items' weights. -/
def Box.ofItems (box_items : List Article) : Box :=
  ⟨box_items, (box_items.map Article.weight_in_grams).sum⟩

/-- Model of `Box.add_article`: appends the article and increments the cached
total weight. -/
def Box.add_article (b : Box) (article : Article) : Box :=
  ⟨b.box_items ++ [article], b.total_weight_in_grams + article.weight_in_grams⟩

/-- Model of the static method `Box.combine`: a new box built (via the `Box`
constructor) from the concatenation of the two boxes' item lists. -/
def Box.combine (box1 box2 : Box) : Box :=
  Box.ofItems (box1.box_items ++ box2.box_items)

/-- Model of the named tuple `WeighedBoxes` used inside `BoxPacker.__ldm`. -/
structure WeighedBoxes where
  weight_difference : Int
  boxes : List Box
deriving DecidableEq, Repr, Inhabited

/-- Model of Python's `<` on two distinct `WeighedBoxes` named tuples, as used by
`heapq`.  Tuple comparison is lexicographic: the integer `weight_difference`
fields are compared first; on a tie the `boxes` lists are compared.  `Box`
defines `__lt__` (by total weight) but not `__eq__`, so Python list comparison
falls back to object identity for `==`; in every comparison performed by this
program the compared lists are distinct freshly-built objects sharing no `Box`
object, so the identity test at index 0 is `False` and the list comparison
returns `boxes1[0] < boxes2[0]`, i.e. the comparison of the head boxes' total
weights (an empty list is less than a non-empty one, and comparing equal-length
exhausted lists yields `False`). -/
def wbLt (x y : WeighedBoxes) : Bool :=
  if x.weight_difference = y.weight_difference then
    match x.boxes, y.boxes with
    | b1 :: _, b2 :: _ => decide (b1.total_weight_in_grams < b2.total_weight_in_grams)
    | [], _ :: _ => true
    | _, [] => false
  else decide (x.weight_difference < y.weight_difference)

/-- Descending-by-weight ordering on articles, the key order of
`sorted(articles, key=Article.get_weight_in_grams, reverse=True)`. -/
def artGE (a b : Article) : Prop :=
  b.weight_in_grams ≤ a.weight_in_grams

instance : DecidableRel artGE := fun a b =>
  (inferInstanceAs (Decidable (b.weight_in_grams ≤ a.weight_in_grams)) :
    Decidable (artGE a b))

instance : IsTotal Article artGE :=
  ⟨fun a b => (le_total b.weight_in_grams a.weight_in_grams).elim Or.inl Or.inr⟩

instance : IsTrans Article artGE :=
  ⟨fun _ _ _ h1 h2 => le_trans h2 h1⟩

/-- Descending-by-total-weight ordering on boxes, the key order of
`sorted(combined_boxes, key=Box.get_total_weight_in_grams, reverse=True)`. -/
def boxGE (a b : Box) : Prop :=
  b.total_weight_in_grams ≤ a.total_weight_in_grams

instance : DecidableRel boxGE := fun a b =>
  (inferInstanceAs (Decidable (b.total_weight_in_grams ≤ a.total_weight_in_grams)) :
    Decidable (boxGE a b))

instance : IsTotal Box boxGE :=
  ⟨fun a b =>
    (le_total b.total_weight_in_grams a.total_weight_in_grams).elim Or.inl Or.inr⟩

instance : IsTrans Box boxGE :=
  ⟨fun _ _ _ h1 h2 => le_trans h2 h1⟩

/-- Model of Python's `min` on a list of integers (folding `min` over the list
starting from its first element).  Python raises on an empty list; the program
only ever applies it to non-empty lists, and the `[]` case returns `0`. -/
def listMin : List Int → Int
  | [] => 0
  | x :: xs => xs.foldl min x

/-- Model of Python's `max` on a list of integers; see `listMin`. -/
def listMax : List Int → Int
  | [] => 0
  | x :: xs => xs.foldl max x

/-- Loop body of CPython's `heapq._siftdown`: while `startpos < pos`, compare
`newitem` with the parent, moving the parent down while `newitem` is smaller;
finally store `newitem` at the reached position.  The fuel argument bounds the
number of iterations; callers pass at least `pos`, which suffices because `pos`
strictly decreases, and at fuel `0` the hypotheses of the lemmas below guarantee
the loop would exit anyway. -/
def siftdownLoop : Nat → WeighedBoxes → List WeighedBoxes → Nat → Nat → List WeighedBoxes
  | 0, newitem, heap, _, pos => heap.set pos newitem
  | fuel + 1, newitem, heap, startpos, pos =>
    if startpos < pos then
      let parentpos := (pos - 1) / 2
      let parent := heap.getD parentpos default
      if wbLt newitem parent then
        siftdownLoop fuel newitem (heap.set pos parent) startpos parentpos
      else heap.set pos newitem
    else heap.set pos newitem

/-- Model of CPython's `heapq._siftdown(heap, startpos, pos)`. -/
def siftdown (heap : List WeighedBoxes) (startpos pos : Nat) : List WeighedBoxes :=
  siftdownLoop pos (heap.getD pos default) heap startpos pos

/-- Loop of CPython's `heapq._siftup`: bubble the smaller child up into `pos`
until reaching a leaf, returning the final heap and position.  The fuel argument
bounds the iterations; callers pass `endpos`, which suffices because the
position strictly increases and stays below `endpos`. -/
def siftupLoop : Nat → Nat → List WeighedBoxes → Nat → List WeighedBoxes × Nat
  | 0, _, heap, pos => (heap, pos)
  | fuel + 1, endpos, heap, pos =>
    let childpos := 2 * pos + 1
    if childpos < endpos then
      let rightpos := childpos + 1
      let chosen :=
        if rightpos < endpos &&
            !(wbLt (heap.getD childpos default) (heap.getD rightpos default)) then
          rightpos
        else childpos
      siftupLoop fuel endpos (heap.set pos (heap.getD chosen default)) chosen
    else (heap, pos)

/-- Model of CPython's `heapq._siftup(heap, pos)`: save `newitem = heap[pos]`,
bubble children up to a leaf, store `newitem` there and sift it down towards the
original position. -/
def siftup (heap : List WeighedBoxes) (pos : Nat) : List WeighedBoxes :=
  let endpos := heap.length
  let newitem := heap.getD pos default
  let hp := siftupLoop endpos endpos heap pos
  siftdown (hp.1.set hp.2 newitem) pos hp.2

/-- Model of CPython's `heapq.heapify(x)`:
`for i in reversed(range(n//2)): _siftup(x, i)`. -/
def heapify (x : List WeighedBoxes) : List WeighedBoxes :=
  (List.range (x.length / 2)).reverse.foldl siftup x

/-- Model of CPython's `heapq.heappush(heap, item)`: append, then sift the new
last element down towards the root. -/
def heappush (heap : List WeighedBoxes) (item : WeighedBoxes) : List WeighedBoxes :=
  siftdown (heap ++ [item]) 0 heap.length

/-- Model of CPython's `heapq.heappop(heap)`: pop the last element; if the heap
is still non-empty, return the root after replacing it with the popped last
element and sifting up.  Popping an empty heap raises in Python, modelled by
`none`. -/
def heappop : List WeighedBoxes → Option (WeighedBoxes × List WeighedBoxes)
  | [] => none
  | [x] => some (x, [])
  | x :: y :: ys =>
    let lastelt := (y :: ys).getLastD default
    some (x, siftup (lastelt :: (y :: ys).dropLast) 0)

/-- Model of the local function `weigh_boxes` of `BoxPacker.__ldm`: the weight
difference `min(weights) - max(weights)` paired with the boxes. -/
def weigh_boxes (boxes : List Box) : WeighedBoxes :=
  let weights := boxes.map Box.total_weight_in_grams
  ⟨listMin weights - listMax weights, boxes⟩

/-- Model of the local function `combine_boxes` of `BoxPacker.__ldm`: reverse
the second list, combine the lists element-wise with `Box.combine` (Python's
two-argument `map` truncates to the shorter list, as `List.zipWith` does), and
sort the result by total weight in descending order. -/
def combine_boxes (boxes1 boxes2 : List Box) : List Box :=
  let combined := List.zipWith Box.combine boxes1 boxes2.reverse
  List.insertionSort boxGE combined

/-- Model of the seeding step of `BoxPacker.__ldm`'s `for` loop: build
`number_of_boxes` empty boxes and add the article to the box at index 0. -/
def seedBoxes (number_of_boxes : Nat) (article : Article) : List Box :=
  let boxes := List.replicate number_of_boxes (Box.ofItems [])
  boxes.set 0 ((boxes.getD 0 default).add_article article)

/-- Model of the `while len(partially packed boxes) > 1` loop of
`BoxPacker.__ldm` together with the final `heappop(...).boxes`: pop the two
entries with the largest weight difference, combine them, push the result, and
repeat; once a single entry remains, return its boxes.  The fuel argument bounds
the iterations; the caller passes the heap length, which suffices because each
iteration shrinks the heap by one.  The `none` branches model the `IndexError`
Python would raise when popping an empty heap (unreachable for the actual
arguments). -/
def ldmLoop : Nat → List WeighedBoxes → List Box
  | 0, _ => []
  | fuel + 1, heap =>
    if 1 < heap.length then
      match heappop heap with
      | some (wb1, heap1) =>
        match heappop heap1 with
        | some (wb2, heap2) =>
          ldmLoop fuel
            (heappush heap2 (weigh_boxes (combine_boxes wb1.boxes wb2.boxes)))
        | none => []
      | none => []
    else
      match heappop heap with
      | some (wb, _) => wb.boxes
      | none => []

/-- Model of `BoxPacker.__ldm`: sort the articles by weight descending, seed one
weighed singleton box-set per article, heapify, then run the main loop. -/
def ldm (articles : List Article) (number_of_boxes : Nat) : List Box :=
  let sorted_articles := List.insertionSort artGE articles
  let seeded := sorted_articles.map (fun article =>
    weigh_boxes (seedBoxes number_of_boxes article))
  let heap := heapify seeded
  ldmLoop heap.length heap

/-- Model of `BoxPacker.pack`: empty article lists short-circuit to
`number_of_boxes` empty boxes; then the box count is validated; one box gets all
articles directly; otherwise `__ldm` runs. -/
def pack (articles : List Article) (number_of_boxes : Int) :
    Except ValueErr (List Box) :=
  if articles = [] then
    .ok (List.replicate number_of_boxes.toNat (Box.ofItems []))
  else if number_of_boxes < 1 then
    .error (.invalidNumberOfBoxes number_of_boxes)
  else if number_of_boxes = 1 then
    .ok [Box.ofItems articles]
  else
    .ok (ldm articles number_of_boxes.toNat)

/-- Helper for the model of `Benchmark.greedy`: the index of the first box of
minimal total weight, as computed by Python's
`min(boxes, key=Box.get_total_weight_in_grams)` (which keeps the first minimum;
scanning replaces the current best only on a strictly smaller key). -/
def minIdxAux : List Box → Int → Nat → Nat → Nat
  | [], _, best, _ => best
  | b :: bs, bestWeight, best, i =>
    if b.total_weight_in_grams < bestWeight then
      minIdxAux bs b.total_weight_in_grams i (i + 1)
    else
      minIdxAux bs bestWeight best (i + 1)

/-- Index of the first box of minimal total weight; see `minIdxAux`.  Python's
`min` raises on an empty list (unreachable here). -/
def minWeightIdx : List Box → Nat
  | [] => 0
  | b :: bs => minIdxAux bs b.total_weight_in_grams 0 1

/-- Model of `Benchmark.greedy`: start from `number_of_boxes` empty boxes and
add each article, in descending weight order, to the currently lightest box
(mutation of that box modelled by `List.set` at its index). -/
def greedy (articles : List Article) (number_of_boxes : Nat) : List Box :=
  let boxes := List.replicate number_of_boxes (Box.ofItems [])
  (List.insertionSort artGE articles).foldl
    (fun boxes article =>
      let i := minWeightIdx boxes
      boxes.set i ((boxes.getD i default).add_article article))
    boxes

/-- Spread of a packing as reported by `Benchmark.run_benchmark`:
`max(weights) - min(weights)` over the boxes' total weights. -/
def spreadOf (boxes : List Box) : Int :=
  listMax (boxes.map Box.total_weight_in_grams) -
    listMin (boxes.map Box.total_weight_in_grams)

/-- Consistency of a box's cached total weight with its contents: the invariant
`__total_weight_in_grams` is the sum of the weights of `__box_items`. -/
def WFBox (b : Box) : Prop :=
  b.total_weight_in_grams = (b.box_items.map Article.weight_in_grams).sum

/-- Invariant of every `WeighedBoxes` entry held in the priority queue of
`BoxPacker.__ldm`: it carries exactly `number_of_boxes` boxes, every box's
cached total weight is consistent, and the boxes are sorted by total weight in
descending order. -/
def InvWB (n : Nat) (wb : WeighedBoxes) : Prop :=
  wb.boxes.length = n ∧ (∀ b ∈ wb.boxes, WFBox b) ∧ List.Sorted boxGE wb.boxes

/-- The articles of the concrete benchmark scenario
`[900, 800, 700, 600, 500]`. -/
def articles900 : List Article := [⟨900⟩, ⟨800⟩, ⟨700⟩, ⟨600⟩, ⟨500⟩]

/-! ### List utility lemmas -/

/-- Setting an index to the value already stored there leaves the list unchanged. -/
theorem set_getD_self {α : Type _} :
    ∀ (l : List α) (i : Nat) (d : α), i < l.length → l.set i (l.getD i d) = l
  | _ :: _, 0, _, _ => rfl
  | a :: t, i + 1, d, h => by
    simp only [List.getD_cons_succ, List.set_cons_succ]
    exact congrArg (a :: ·) (set_getD_self t i d (by simpa using h))

/-- Pulling the element at index `k` to the front while writing `x` at index `k`
is a permutation of pushing `x` onto the original list. -/
theorem cons_getD_set_perm {α : Type _} :
    ∀ (t : List α) (k : Nat), k < t.length → ∀ (x d : α),
      (t.getD k d :: t.set k x).Perm (x :: t)
  | b :: s, 0, _, x, _ => List.Perm.swap x b s
  | b :: s, k + 1, hk, x, d => by
    simp only [List.getD_cons_succ, List.set_cons_succ]
    exact ((List.Perm.swap b (s.getD k d) (s.set k x)).trans
      ((cons_getD_set_perm s k (by simpa using hk) x d).cons b)).trans
      (List.Perm.swap x b s)

/-- Writing the value of index `j` into index `i` and then `x` into index `j`
permutes to just writing `x` into index `i`. -/
theorem set_set_getD_perm {α : Type _} :
    ∀ (l : List α) (i j : Nat), i < l.length → j < l.length → i ≠ j → ∀ (x d : α),
      ((l.set i (l.getD j d)).set j x).Perm (l.set i x)
  | _ :: _, 0, 0, _, _, hij, _, _ => absurd rfl hij
  | a :: t, 0, j + 1, _, hj, _, x, d => by
    simp only [List.getD_cons_succ, List.set_cons_succ, List.set_cons_zero]
    exact cons_getD_set_perm t j (by simpa using hj) x d
  | a :: t, i + 1, 0, hi, _, _, x, d => by
    simp only [List.getD_cons_zero, List.set_cons_succ, List.set_cons_zero]
    have hk : i < t.length := by simpa using hi
    have hk2 : i < (t.set i a).length := by simpa using hk
    have h1 := cons_getD_set_perm (t.set i a) i hk2 x d
    rw [List.getD_eq_getElem (t.set i a) d hk2, List.getElem_set_self hk2,
      List.set_set] at h1
    exact h1.symm
  | a :: t, i + 1, j + 1, hi, hj, hij, x, d => by
    simp only [List.getD_cons_succ, List.set_cons_succ]
    exact (set_set_getD_perm t i j (by simpa using hi) (by simpa using hj)
      (fun h => hij (congrArg Nat.succ h)) x d).cons a

/-- Splitting off the last element of a non-empty list, with a default value. -/
theorem dropLast_append_getLastD {α : Type _} (l : List α) (hne : l ≠ []) (d : α) :
    l.dropLast ++ [l.getLastD d] = l := by
  rw [List.getLastD_eq_getLast? , List.getLast?_eq_getLast l hne]
  exact List.dropLast_append_getLast hne

/-! ### Permutation and length lemmas for the embedded `heapq` operations -/

/-- The sift-down loop preserves the heap length. -/
theorem siftdownLoop_length :
    ∀ (fuel : Nat) (ni : WeighedBoxes) (h : List WeighedBoxes) (s p : Nat),
      (siftdownLoop fuel ni h s p).length = h.length
  | 0, _, _, _, _ => by simp [siftdownLoop]
  | fuel + 1, ni, h, s, p => by
    rw [siftdownLoop]
    by_cases hsp : s < p
    · simp only [if_pos hsp]
      by_cases hlt : wbLt ni (h.getD ((p - 1) / 2) default) = true
      · rw [if_pos hlt, siftdownLoop_length fuel, List.length_set]
      · rw [if_neg hlt, List.length_set]
    · simp [if_neg hsp]

/-- The sift-down loop, run with enough fuel and an in-range position, permutes
the heap obtained by directly writing `ni` at the position. -/
theorem siftdownLoop_perm :
    ∀ (fuel : Nat) (ni : WeighedBoxes) (h : List WeighedBoxes) (s p : Nat),
      p < h.length → p ≤ fuel + s →
      (siftdownLoop fuel ni h s p).Perm (h.set p ni)
  | 0, ni, h, s, p, _, _ => by simp [siftdownLoop]
  | fuel + 1, ni, h, s, p, hp, hf => by
    rw [siftdownLoop]
    by_cases hsp : s < p
    · simp only [if_pos hsp]
      have hppos : 0 < p := Nat.lt_of_le_of_lt (Nat.zero_le s) hsp
      have hpp_lt : (p - 1) / 2 < p :=
        Nat.lt_of_le_of_lt (Nat.div_le_self _ _) (Nat.sub_lt hppos Nat.one_pos)
      have hpp_len : (p - 1) / 2 < h.length := hpp_lt.trans hp
      by_cases hlt : wbLt ni (h.getD ((p - 1) / 2) default) = true
      · rw [if_pos hlt]
        have hrec := siftdownLoop_perm fuel ni
          (h.set p (h.getD ((p - 1) / 2) default)) s ((p - 1) / 2)
          (by simpa using hpp_len) (by omega)
        exact hrec.trans
          (set_set_getD_perm h p ((p - 1) / 2) hp hpp_len
            (Nat.ne_of_gt hpp_lt) ni default)
      · rw [if_neg hlt]
    · simp [if_neg hsp]

/-- `siftdown` preserves the heap length. -/
theorem siftdown_length (heap : List WeighedBoxes) (s p : Nat) :
    (siftdown heap s p).length = heap.length :=
  siftdownLoop_length p _ heap s p

/-- `siftdown` at an in-range position permutes the heap. -/
theorem siftdown_perm (heap : List WeighedBoxes) (s p : Nat) (hp : p < heap.length) :
    (siftdown heap s p).Perm heap := by
  have h1 := siftdownLoop_perm p (heap.getD p default) heap s p hp (Nat.le_add_right _ _)
  rwa [set_getD_self heap p default hp] at h1

/-- The sift-up loop preserves the heap length. -/
theorem siftupLoop_length :
    ∀ (fuel endpos : Nat) (h : List WeighedBoxes) (p : Nat),
      (siftupLoop fuel endpos h p).1.length = h.length
  | 0, _, _, _ => rfl
  | fuel + 1, endpos, h, p => by
    rw [siftupLoop]
    by_cases hc : 2 * p + 1 < endpos
    · simp only [if_pos hc]
      rw [siftupLoop_length fuel, List.length_set]
    · simp [if_neg hc]

/-- The sift-up loop, run with enough fuel, returns an in-range final position,
and writing any value there permutes writing it at the starting position. -/
theorem siftupLoop_spec :
    ∀ (fuel endpos : Nat) (h : List WeighedBoxes) (p : Nat),
      p < h.length → h.length = endpos → endpos ≤ fuel + p →
      (siftupLoop fuel endpos h p).2 < h.length ∧
      ∀ x, ((siftupLoop fuel endpos h p).1.set (siftupLoop fuel endpos h p).2 x).Perm
        (h.set p x)
  | 0, endpos, h, p, hp, _, _ => ⟨hp, fun _ => List.Perm.refl _⟩
  | fuel + 1, endpos, h, p, hp, hlen, hf => by
    rw [siftupLoop]
    by_cases hc : 2 * p + 1 < endpos
    · simp only [if_pos hc]
      set chosen :=
        if (2 * p + 1 + 1 < endpos &&
            !wbLt (h.getD (2 * p + 1) default) (h.getD (2 * p + 1 + 1) default)) then
          2 * p + 1 + 1
        else 2 * p + 1 with hchosen
      have hch_lt : chosen < endpos := by
        rw [hchosen]
        split
        · next hcond => exact (Bool.and_eq_true_iff.mp hcond).1 |> of_decide_eq_true
        · exact hc
      have hch_gt : p < chosen := by
        rw [hchosen]
        split
        · omega
        · omega
      have hch_len : chosen < h.length := hlen ▸ hch_lt
      have hrec := siftupLoop_spec fuel endpos (h.set p (h.getD chosen default)) chosen
        (by simpa using hch_len) (by simpa using hlen) (by omega)
      refine ⟨by simpa using hrec.1, fun x => (hrec.2 x).trans ?_⟩
      exact set_set_getD_perm h p chosen hp hch_len (Nat.ne_of_lt hch_gt) x default
    · simp only [if_neg hc]
      exact ⟨hp, fun _ => List.Perm.refl _⟩

/-- `siftup` preserves the heap length. -/
theorem siftup_length (heap : List WeighedBoxes) (p : Nat) :
    (siftup heap p).length = heap.length := by
  rw [siftup]
  rw [siftdown_length, List.length_set, siftupLoop_length]

/-- `siftup` at an in-range position permutes the heap. -/
theorem siftup_perm (heap : List WeighedBoxes) (p : Nat) (hp : p < heap.length) :
    (siftup heap p).Perm heap := by
  rw [siftup]
  have hspec := siftupLoop_spec heap.length heap.length heap p hp rfl
    (Nat.le_add_right _ _)
  have hp2 : (siftupLoop heap.length heap.length heap p).2 <
      ((siftupLoop heap.length heap.length heap p).1.set
        (siftupLoop heap.length heap.length heap p).2 (heap.getD p default)).length := by
    rw [List.length_set, siftupLoop_length]
    exact hspec.1
  refine (siftdown_perm _ _ _ hp2).trans ?_
  have h1 := hspec.2 (heap.getD p default)
  rwa [set_getD_self heap p default hp] at h1

/-- Folding `siftup` over in-range indices permutes the heap and keeps its length. -/
theorem foldl_siftup_spec :
    ∀ (idxs : List Nat) (x : List WeighedBoxes), (∀ i ∈ idxs, i < x.length) →
      (idxs.foldl siftup x).Perm x ∧ (idxs.foldl siftup x).length = x.length
  | [], _, _ => ⟨List.Perm.refl _, rfl⟩
  | i :: is, x, hb => by
    simp only [List.foldl_cons]
    have hi : i < x.length := hb i (List.mem_cons_self i is)
    have hrec := foldl_siftup_spec is (siftup x i) (by
      intro j hj
      rw [siftup_length]
      exact hb j (List.mem_cons_of_mem i hj))
    exact ⟨hrec.1.trans (siftup_perm x i hi), by rw [hrec.2, siftup_length]⟩

/-- `heapify` permutes its input. -/
theorem heapify_perm (x : List WeighedBoxes) : (heapify x).Perm x := by
  rw [heapify]
  refine (foldl_siftup_spec _ x ?_).1
  intro i hi
  rw [List.mem_reverse, List.mem_range] at hi
  exact Nat.lt_of_lt_of_le hi (Nat.div_le_self _ _)

/-- `heapify` preserves the length. -/
theorem heapify_length (x : List WeighedBoxes) : (heapify x).length = x.length :=
  (heapify_perm x).length_eq

/-- `heappush` permutes consing the new item onto the heap. -/
theorem heappush_perm (heap : List WeighedBoxes) (item : WeighedBoxes) :
    (heappush heap item).Perm (item :: heap) := by
  rw [heappush]
  have hlt : heap.length < (heap ++ [item]).length := by simp
  exact (siftdown_perm _ 0 heap.length hlt).trans (List.perm_append_singleton item heap)

/-- `heappush` grows the heap by one element. -/
theorem heappush_length (heap : List WeighedBoxes) (item : WeighedBoxes) :
    (heappush heap item).length = heap.length + 1 := by
  have := (heappush_perm heap item).length_eq
  simpa using this

/-- `heappop` succeeds on a non-empty heap. -/
theorem heappop_isSome :
    ∀ (heap : List WeighedBoxes), heap ≠ [] →
      ∃ r rest, heappop heap = some (r, rest)
  | [], hne => absurd rfl hne
  | [x], _ => ⟨x, [], rfl⟩
  | _ :: _ :: _, _ => ⟨_, _, rfl⟩

/-- A successful `heappop` returns an element and a rest that together permute
the original heap. -/
theorem heappop_perm :
    ∀ {heap : List WeighedBoxes} {r : WeighedBoxes} {rest : List WeighedBoxes},
      heappop heap = some (r, rest) → (r :: rest).Perm heap
  | [], _, _, hp => by simp [heappop] at hp
  | [x], r, rest, hp => by
    simp only [heappop, Option.some_inj, Prod.mk.injEq] at hp
    rw [← hp.1, ← hp.2]
  | x :: y :: ys, r, rest, hp => by
    simp only [heappop, Option.some_inj, Prod.mk.injEq] at hp
    obtain ⟨rfl, rfl⟩ := hp
    have hpos : 0 < ((y :: ys).getLastD default :: (y :: ys).dropLast).length := by
      simp
    refine ((siftup_perm _ 0 hpos).cons x).trans (List.Perm.cons x ?_)
    have hsplit := dropLast_append_getLastD (y :: ys) (List.cons_ne_nil y ys) default
    have h1 := List.perm_append_singleton ((y :: ys).getLastD default) ((y :: ys).dropLast)
    rw [hsplit] at h1
    exact h1.symm

/-- A successful `heappop` shrinks the heap by one element. -/
theorem heappop_length {heap : List WeighedBoxes} {r : WeighedBoxes}
    {rest : List WeighedBoxes} (hp : heappop heap = some (r, rest)) :
    rest.length + 1 = heap.length := by
  have := (heappop_perm hp).length_eq
  simpa using this

/-! ### Lemmas about boxes, combining and seeding -/

/-- A box built by the `Box` constructor has a consistent cached weight. -/
theorem WFBox_ofItems (l : List Article) : WFBox (Box.ofItems l) := rfl

/-- `add_article` preserves cached-weight consistency. -/
theorem WFBox_add {b : Box} (a : Article) (h : WFBox b) :
    WFBox (b.add_article a) := by
  have h' : b.total_weight_in_grams = (b.box_items.map Article.weight_in_grams).sum := h
  simp [WFBox, Box.add_article, h']

/-- The items of a combined box are the concatenation of the inputs' items. -/
theorem combine_box_items (b1 b2 : Box) :
    (Box.combine b1 b2).box_items = b1.box_items ++ b2.box_items := rfl

/-- A combined box has a consistent cached weight. -/
theorem WFBox_combine (b1 b2 : Box) : WFBox (Box.combine b1 b2) := rfl

/-- For consistent inputs, the combined total weight is the sum of the totals. -/
theorem combine_total {b1 b2 : Box} (h1 : WFBox b1) (h2 : WFBox b2) :
    (Box.combine b1 b2).total_weight_in_grams =
      b1.total_weight_in_grams + b2.total_weight_in_grams := by
  have e1 : b1.total_weight_in_grams = (b1.box_items.map Article.weight_in_grams).sum := h1
  have e2 : b2.total_weight_in_grams = (b2.box_items.map Article.weight_in_grams).sum := h2
  simp [Box.combine, Box.ofItems, e1, e2]

/-- Every element-wise combination of two box lists is consistent. -/
theorem mem_zipWith_combine :
    ∀ (l1 l2 : List Box) (b : Box), b ∈ List.zipWith Box.combine l1 l2 → WFBox b
  | [], _, _, hb => by simp at hb
  | _ :: _, [], _, hb => by simp at hb
  | x :: l1, y :: l2, b, hb => by
    rcases List.mem_cons.mp hb with h | h
    · exact h ▸ WFBox_combine x y
    · exact mem_zipWith_combine l1 l2 b h

/-- The concatenated items of element-wise combined box lists of equal length
permute the concatenation of both lists' items. -/
theorem zipWith_combine_flatMap :
    ∀ (l1 l2 : List Box), l1.length = l2.length →
      ((List.zipWith Box.combine l1 l2).flatMap Box.box_items).Perm
        (l1.flatMap Box.box_items ++ l2.flatMap Box.box_items)
  | [], [], _ => by simp
  | [], _ :: _, h => by simp at h
  | _ :: _, [], h => by simp at h
  | a :: l1, b :: l2, h => by
    simp only [List.zipWith_cons_cons, List.flatMap_cons, combine_box_items,
      List.append_assoc]
    refine List.Perm.append_left a.box_items ?_
    refine ((zipWith_combine_flatMap l1 l2 (by simpa using h)).append_left
      b.box_items).trans ?_
    rw [← List.append_assoc, ← List.append_assoc]
    exact List.perm_append_comm.append_right (l2.flatMap Box.box_items)

/-- `combine_boxes` on equal-length lists returns a list of the same length. -/
theorem combine_boxes_length (l1 l2 : List Box) (h : l1.length = l2.length) :
    (combine_boxes l1 l2).length = l1.length := by
  rw [combine_boxes]
  rw [(List.perm_insertionSort boxGE _).length_eq]
  simp [h]

/-- Every box produced by `combine_boxes` has a consistent cached weight. -/
theorem combine_boxes_WF (l1 l2 : List Box) :
    ∀ b ∈ combine_boxes l1 l2, WFBox b := by
  intro b hb
  rw [combine_boxes, List.mem_insertionSort] at hb
  exact mem_zipWith_combine l1 l2.reverse b hb

/-- `combine_boxes` returns a list sorted by total weight in descending order. -/
theorem combine_boxes_sorted (l1 l2 : List Box) :
    List.Sorted boxGE (combine_boxes l1 l2) :=
  List.sorted_insertionSort boxGE _

/-- The items of `combine_boxes` on equal-length lists permute the items of both
input lists. -/
theorem combine_boxes_flatMap (l1 l2 : List Box) (h : l1.length = l2.length) :
    ((combine_boxes l1 l2).flatMap Box.box_items).Perm
      (l1.flatMap Box.box_items ++ l2.flatMap Box.box_items) := by
  rw [combine_boxes]
  refine (List.Perm.flatMap_right Box.box_items
    (List.perm_insertionSort boxGE _)).trans ?_
  refine (zipWith_combine_flatMap l1 l2.reverse (by simpa using h)).trans ?_
  exact List.Perm.append_left _ (List.Perm.flatMap_right Box.box_items
    (List.reverse_perm l2))

/-- Unfolding of the seeding step for a positive box count. -/
theorem seedBoxes_succ (m : Nat) (a : Article) :
    seedBoxes (m + 1) a =
      (Box.ofItems []).add_article a :: List.replicate m (Box.ofItems []) := by
  simp [seedBoxes, List.replicate_succ]

/-- The seeding step builds exactly `number_of_boxes` boxes. -/
theorem seedBoxes_length (n : Nat) (a : Article) : (seedBoxes n a).length = n := by
  simp [seedBoxes]

/-- All seeded boxes have consistent cached weights. -/
theorem seedBoxes_WF (n : Nat) (a : Article) : ∀ b ∈ seedBoxes n a, WFBox b := by
  cases n with
  | zero => simp [seedBoxes]
  | succ m =>
    rw [seedBoxes_succ]
    intro b hb
    rcases List.mem_cons.mp hb with h | h
    · exact h ▸ WFBox_add a (WFBox_ofItems [])
    · rw [(List.mem_replicate.mp h).2]
      exact WFBox_ofItems []

/-- For a non-negative article weight, the seeded box list is sorted by total
weight in descending order. -/
theorem seedBoxes_sorted (n : Nat) (a : Article) (hw : 0 ≤ a.weight_in_grams) :
    List.Sorted boxGE (seedBoxes n a) := by
  cases n with
  | zero => simp [seedBoxes]
  | succ m =>
    rw [seedBoxes_succ, List.sorted_cons]
    constructor
    · intro b hb
      rw [(List.mem_replicate.mp hb).2]
      simpa [boxGE, Box.ofItems, Box.add_article] using hw
    · exact List.pairwise_replicate.mpr (Or.inr (le_refl _))

/-- Empty boxes contribute no items. -/
theorem replicate_empty_flatMap :
    ∀ (m : Nat), (List.replicate m (Box.ofItems [])).flatMap Box.box_items = []
  | 0 => rfl
  | m + 1 => by
    rw [List.replicate_succ, List.flatMap_cons, replicate_empty_flatMap m]
    rfl

/-- For a positive box count, the seeded box list holds exactly the one article. -/
theorem seedBoxes_flatMap (n : Nat) (a : Article) (hn : 1 ≤ n) :
    (seedBoxes n a).flatMap Box.box_items = [a] := by
  cases n with
  | zero => omega
  | succ m =>
    rw [seedBoxes_succ, List.flatMap_cons, replicate_empty_flatMap m]
    simp [Box.add_article, Box.ofItems]

/-- Boxes stored by `weigh_boxes` are the input boxes unchanged. -/
theorem weigh_boxes_boxes (boxes : List Box) : (weigh_boxes boxes).boxes = boxes := rfl

/-- Main-loop invariant of `BoxPacker.__ldm`: run with enough fuel on a
non-empty heap whose entries all satisfy `InvWB n`, the loop returns a box list
of length `n`, with consistent cached weights, sorted by total weight in
descending order, whose concatenated items permute the concatenated items of
the whole heap. -/
theorem ldmLoop_spec (n : Nat) :
    ∀ (fuel : Nat) (heap : List WeighedBoxes),
      heap.length ≤ fuel → 1 ≤ heap.length → (∀ wb ∈ heap, InvWB n wb) →
      (ldmLoop fuel heap).length = n ∧ (∀ b ∈ ldmLoop fuel heap, WFBox b) ∧
      List.Sorted boxGE (ldmLoop fuel heap) ∧
      ((ldmLoop fuel heap).flatMap Box.box_items).Perm
        (heap.flatMap (fun wb => wb.boxes.flatMap Box.box_items))
  | 0, heap, hf, hne, _ => absurd (hne.trans hf) (Nat.not_succ_le_zero 0)
  | fuel + 1, heap, hf, hne, hinv => by
    rw [ldmLoop]
    by_cases hlen : 1 < heap.length
    · simp only [if_pos hlen]
      obtain ⟨r1, rest1, hpop1⟩ := heappop_isSome heap
        (List.length_pos.mp (by omega))
      have perm1 := heappop_perm hpop1
      have len1 : rest1.length + 1 = heap.length := heappop_length hpop1
      obtain ⟨r2, rest2, hpop2⟩ := heappop_isSome rest1
        (List.length_pos.mp (by omega))
      have perm2 := heappop_perm hpop2
      have len2 : rest2.length + 1 = rest1.length := heappop_length hpop2
      have hr1mem : r1 ∈ heap := perm1.mem_iff.mp (List.mem_cons_self _ _)
      have hr2mem : r2 ∈ heap := perm1.mem_iff.mp
        (List.mem_cons_of_mem r1 (perm2.mem_iff.mp (List.mem_cons_self _ _)))
      have hinv1 := hinv r1 hr1mem
      have hinv2 := hinv r2 hr2mem
      have hlens : r1.boxes.length = r2.boxes.length := by rw [hinv1.1, hinv2.1]
      rw [hpop1]
      dsimp only
      rw [hpop2]
      dsimp only
      have hnew : InvWB n (weigh_boxes (combine_boxes r1.boxes r2.boxes)) := by
        refine ⟨?_, ?_, ?_⟩
        · rw [weigh_boxes_boxes, combine_boxes_length _ _ hlens, hinv1.1]
        · rw [weigh_boxes_boxes]; exact combine_boxes_WF _ _
        · rw [weigh_boxes_boxes]; exact combine_boxes_sorted _ _
      have hpush := heappush_perm rest2 (weigh_boxes (combine_boxes r1.boxes r2.boxes))
      have hpushlen :=
        heappush_length rest2 (weigh_boxes (combine_boxes r1.boxes r2.boxes))
      have hrec := ldmLoop_spec n fuel
        (heappush rest2 (weigh_boxes (combine_boxes r1.boxes r2.boxes)))
        (by omega) (by omega)
        (by
          intro wb hwb
          rcases List.mem_cons.mp (hpush.mem_iff.mp hwb) with h | h
          · exact h ▸ hnew
          · exact hinv wb (perm1.mem_iff.mp (List.mem_cons_of_mem r1
              (perm2.mem_iff.mp (List.mem_cons_of_mem r2 h)))))
      refine ⟨hrec.1, hrec.2.1, hrec.2.2.1, hrec.2.2.2.trans ?_⟩
      have e1 : ((heappush rest2
          (weigh_boxes (combine_boxes r1.boxes r2.boxes))).flatMap
            (fun wb => wb.boxes.flatMap Box.box_items)).Perm
          ((combine_boxes r1.boxes r2.boxes).flatMap Box.box_items ++
            rest2.flatMap (fun wb => wb.boxes.flatMap Box.box_items)) := by
        refine (List.Perm.flatMap_right _ hpush).trans ?_
        rw [List.flatMap_cons, weigh_boxes_boxes]
      refine e1.trans ?_
      refine ((combine_boxes_flatMap r1.boxes r2.boxes hlens).append_right _).trans ?_
      have e3 : (heap.flatMap (fun wb => wb.boxes.flatMap Box.box_items)).Perm
          (r1.boxes.flatMap Box.box_items ++ (r2.boxes.flatMap Box.box_items ++
            rest2.flatMap (fun wb => wb.boxes.flatMap Box.box_items))) := by
        refine (List.Perm.flatMap_right _ perm1.symm).trans ?_
        rw [List.flatMap_cons]
        refine List.Perm.append_left _ ?_
        refine (List.Perm.flatMap_right _ perm2.symm).trans ?_
        rw [List.flatMap_cons]
      rw [List.append_assoc]
      exact e3.symm
    · simp only [if_neg hlen]
      have h1 : heap.length = 1 := by omega
      obtain ⟨wb, rfl⟩ := List.length_eq_one.mp h1
      simp only [heappop]
      have hi := hinv wb (List.mem_cons_self _ _)
      refine ⟨hi.1, hi.2.1, hi.2.2, ?_⟩
      simp

/-- Seeding one weighed singleton box-set per article and concatenating all
items recovers the article list. -/
theorem map_seed_flatMap (n : Nat) (hn : 1 ≤ n) :
    ∀ (l : List Article),
      ((l.map (fun a => weigh_boxes (seedBoxes n a))).flatMap
        (fun wb => wb.boxes.flatMap Box.box_items)) = l
  | [] => rfl
  | a :: l => by
    rw [List.map_cons, List.flatMap_cons, weigh_boxes_boxes,
      seedBoxes_flatMap n a hn, map_seed_flatMap n hn l]
    rfl

/-- Specification of `BoxPacker.__ldm` for a non-empty article list and a
positive box count with positive article weights. -/
theorem ldm_spec (articles : List Article) (n : Nat) (hne : articles ≠ [])
    (hn : 1 ≤ n) (hw : ∀ a ∈ articles, 0 < a.weight_in_grams) :
    (ldm articles n).length = n ∧ (∀ b ∈ ldm articles n, WFBox b) ∧
    List.Sorted boxGE (ldm articles n) ∧
    ((ldm articles n).flatMap Box.box_items).Perm articles := by
  have hldm : ldm articles n =
      ldmLoop (heapify ((List.insertionSort artGE articles).map
        (fun article => weigh_boxes (seedBoxes n article)))).length
        (heapify ((List.insertionSort artGE articles).map
          (fun article => weigh_boxes (seedBoxes n article)))) := rfl
  rw [hldm]
  set seeded := (List.insertionSort artGE articles).map
    (fun article => weigh_boxes (seedBoxes n article)) with hseed
  have hlen : (heapify seeded).length = articles.length := by
    rw [heapify_length, hseed, List.length_map,
      (List.perm_insertionSort artGE articles).length_eq]
  have hpos : 1 ≤ (heapify seeded).length := by
    rw [hlen]
    exact List.length_pos.mpr hne
  have hinv : ∀ wb ∈ heapify seeded, InvWB n wb := by
    intro wb hwb
    have hwb2 : wb ∈ seeded := ((heapify_perm seeded).mem_iff).mp hwb
    rw [hseed, List.mem_map] at hwb2
    obtain ⟨a, ha, rfl⟩ := hwb2
    have haw : 0 < a.weight_in_grams := hw a ((List.mem_insertionSort artGE).mp ha)
    exact ⟨by rw [weigh_boxes_boxes, seedBoxes_length],
      by rw [weigh_boxes_boxes]; exact seedBoxes_WF n a,
      by rw [weigh_boxes_boxes]; exact seedBoxes_sorted n a (le_of_lt haw)⟩
  have hmain := ldmLoop_spec n (heapify seeded).length (heapify seeded)
    (le_refl _) hpos hinv
  refine ⟨hmain.1, hmain.2.1, hmain.2.2.1, hmain.2.2.2.trans ?_⟩
  refine (List.Perm.flatMap_right _ (heapify_perm seeded)).trans ?_
  rw [hseed, map_seed_flatMap n hn]
  exact List.perm_insertionSort artGE articles

/-- Combined specification of `BoxPacker.pack` for positive article weights and
a positive box count: it succeeds, returns `number_of_boxes` boxes that are
weight-consistent and sorted descending, and its boxes' items permute the input
articles. -/
theorem pack_ok_spec (articles : List Article) (n : Int)
    (hw : ∀ a ∈ articles, 0 < a.weight_in_grams) (hn : 1 ≤ n) :
    ∃ bs, pack articles n = .ok bs ∧ bs.length = n.toNat ∧
      (∀ b ∈ bs, WFBox b) ∧ List.Sorted boxGE bs ∧
      (bs.flatMap Box.box_items).Perm articles := by
  rw [pack]
  by_cases he : articles = []
  · rw [if_pos he]
    refine ⟨_, rfl, by simp, ?_, ?_, ?_⟩
    · intro b hb
      rw [(List.mem_replicate.mp hb).2]
      exact WFBox_ofItems []
    · exact List.pairwise_replicate.mpr (Or.inr (le_refl _))
    · rw [replicate_empty_flatMap, he]
  · rw [if_neg he, if_neg (by omega : ¬ n < 1)]
    by_cases h1 : n = 1
    · rw [if_pos h1]
      refine ⟨_, rfl, by simp [h1], ?_, ?_, ?_⟩
      · intro b hb
        rw [List.mem_singleton.mp hb]
        exact WFBox_ofItems articles
      · exact List.sorted_singleton _
      · simp [Box.ofItems]
    · rw [if_neg h1]
      have h2 : 1 ≤ n.toNat := by omega
      have hm := ldm_spec articles n.toNat he h2 hw
      exact ⟨_, rfl, hm.1, hm.2.1, hm.2.2.1, hm.2.2.2⟩

/-- For weight-consistent boxes, the sum of cached totals is the total weight of
all contained items. -/
theorem sum_totals_eq :
    ∀ (bs : List Box), (∀ b ∈ bs, WFBox b) →
      (bs.map Box.total_weight_in_grams).sum =
        ((bs.flatMap Box.box_items).map Article.weight_in_grams).sum
  | [], _ => rfl
  | b :: bs, h => by
    simp only [List.map_cons, List.sum_cons, List.flatMap_cons, List.map_append,
      List.sum_append]
    rw [show b.total_weight_in_grams = (b.box_items.map Article.weight_in_grams).sum
        from h b (List.mem_cons_self _ _),
      sum_totals_eq bs (fun x hx => h x (List.mem_cons_of_mem b hx))]

/-! ### Claim theorems -/

/-- C1: for every list of articles all of positive weight and every container
count of at least 1, `pack` succeeds and the concatenation of the returned
boxes' item lists is a permutation of the input articles: each input article
lands in exactly one box, none duplicated, none lost. -/
theorem pack_partition (articles : List Article) (n : Int)
    (hw : ∀ a ∈ articles, 0 < a.weight_in_grams) (hn : 1 ≤ n) :
    ∃ bs, pack articles n = .ok bs ∧ (bs.flatMap Box.box_items).Perm articles := by
  obtain ⟨bs, hok, _, _, _, hperm⟩ := pack_ok_spec articles n hw hn
  exact ⟨bs, hok, hperm⟩

/-- Witness for C1 at articles of weights 2 and 3 with container count 2. -/
theorem pack_partition_witness :
    ∃ bs, pack [(⟨2⟩ : Article), ⟨3⟩] 2 = .ok bs ∧
      (bs.flatMap Box.box_items).Perm [(⟨2⟩ : Article), ⟨3⟩] :=
  pack_partition [⟨2⟩, ⟨3⟩] 2 (by decide) (by decide)

/-- C2: for every list of articles all of positive weight and every container
count of at least 1, the sum of the returned boxes' total weights equals the sum
of the input articles' weights. -/
theorem pack_conservation (articles : List Article) (n : Int)
    (hw : ∀ a ∈ articles, 0 < a.weight_in_grams) (hn : 1 ≤ n) :
    ∃ bs, pack articles n = .ok bs ∧
      (bs.map Box.total_weight_in_grams).sum =
        (articles.map Article.weight_in_grams).sum := by
  obtain ⟨bs, hok, _, hwf, _, hperm⟩ := pack_ok_spec articles n hw hn
  refine ⟨bs, hok, ?_⟩
  rw [sum_totals_eq bs hwf]
  exact (hperm.map Article.weight_in_grams).sum_eq

/-- Witness for C2 at articles of weights 4, 5, 6 with container count 2. -/
theorem pack_conservation_witness :
    ∃ bs, pack [(⟨4⟩ : Article), ⟨5⟩, ⟨6⟩] 2 = .ok bs ∧
      (bs.map Box.total_weight_in_grams).sum =
        (([(⟨4⟩ : Article), ⟨5⟩, ⟨6⟩]).map Article.weight_in_grams).sum :=
  pack_conservation [⟨4⟩, ⟨5⟩, ⟨6⟩] 2 (by decide) (by decide)

/-- C3: for every list of articles all of positive weight and every container
count of at least 1, `pack` succeeds and returns exactly that many boxes. -/
theorem pack_container_count (articles : List Article) (n : Int)
    (hw : ∀ a ∈ articles, 0 < a.weight_in_grams) (hn : 1 ≤ n) :
    ∃ bs, pack articles n = .ok bs ∧ (bs.length : Int) = n := by
  obtain ⟨bs, hok, hlen, _⟩ := pack_ok_spec articles n hw hn
  refine ⟨bs, hok, ?_⟩
  rw [hlen]
  omega

/-- Witness for C3 at articles of weights 9 and 1 with container count 3. -/
theorem pack_container_count_witness :
    ∃ bs, pack [(⟨9⟩ : Article), ⟨1⟩] 3 = .ok bs ∧ (bs.length : Int) = 3 :=
  pack_container_count [⟨9⟩, ⟨1⟩] 3 (by decide) (by decide)

/-- C4 counterexample: on articles [900, 800, 700, 600, 500] with 2 containers,
`pack` runs the largest differencing method and the resulting spread is neither
0 nor 100 (it is 300). -/
theorem ldm_spread_concrete_counterexample :
    pack articles900 2 = .ok (ldm articles900 2) ∧
    ¬(spreadOf (ldm articles900 2) = 0 ∨ spreadOf (ldm articles900 2) = 100) :=
  ⟨rfl, by decide⟩

/-- C4 amended: on articles [900, 800, 700, 600, 500] with 2 containers, the
largest differencing method yields a spread of 300, the greedy baseline yields
500, and the LDM spread is at most the greedy spread. -/
theorem ldm_spread_concrete_amended :
    pack articles900 2 = .ok (ldm articles900 2) ∧
    spreadOf (ldm articles900 2) = 300 ∧
    spreadOf (greedy articles900 2) = 500 ∧
    spreadOf (ldm articles900 2) ≤ spreadOf (greedy articles900 2) :=
  ⟨rfl, by decide, by decide, by decide⟩

/-- C5 counterexample: with an empty article list and container count 0, `pack`
returns successfully (an empty box list) instead of raising the invalid-count
error, because the empty-articles short-circuit runs before count validation. -/
theorem pack_zero_boxes_empty_counterexample :
    pack ([] : List Article) 0 = .ok [] ∧
    ∀ e : ValueErr, pack ([] : List Article) 0 ≠ .error e := by
  refine ⟨rfl, ?_⟩
  intro e he
  rw [show pack ([] : List Article) 0 = .ok [] from rfl] at he
  exact Except.noConfusion he

/-- C5 amended: for every NON-EMPTY article list, calling `pack` with a
container count below 1 fails with the invalid-count error, raised by the count
check at the start of `pack` before any algorithmic work. -/
theorem pack_invalid_count (articles : List Article) (n : Int)
    (hne : articles ≠ []) (hn : n < 1) :
    pack articles n = .error (.invalidNumberOfBoxes n) := by
  rw [pack, if_neg hne, if_pos hn]

/-- Witness for the amended C5 at a one-article list and container count 0. -/
theorem pack_invalid_count_witness :
    pack [(⟨1⟩ : Article)] 0 = .error (.invalidNumberOfBoxes 0) :=
  pack_invalid_count [⟨1⟩] 0 (by decide) (by decide)

/-- C6: each seeded singleton box-set is sorted by total weight descending at
insertion, and one iteration of the LDM main loop (pop two entries, combine,
push the merged entry) re-establishes the sorted-descending invariant for every
entry held in the priority structure. -/
theorem ldm_heap_sorted_invariant :
    (∀ (n : Nat), 2 ≤ n → ∀ (a : Article), 0 < a.weight_in_grams →
      List.Sorted boxGE (seedBoxes n a)) ∧
    (∀ (heap : List WeighedBoxes) (r1 : WeighedBoxes) (rest1 : List WeighedBoxes)
        (r2 : WeighedBoxes) (rest2 : List WeighedBoxes),
      (∀ wb ∈ heap, List.Sorted boxGE wb.boxes) →
      heappop heap = some (r1, rest1) → heappop rest1 = some (r2, rest2) →
      ∀ wb ∈ heappush rest2 (weigh_boxes (combine_boxes r1.boxes r2.boxes)),
        List.Sorted boxGE wb.boxes) := by
  constructor
  · intro n _ a haw
    exact seedBoxes_sorted n a (le_of_lt haw)
  · intro heap r1 rest1 r2 rest2 hsorted hpop1 hpop2 wb hwb
    have perm1 := heappop_perm hpop1
    have perm2 := heappop_perm hpop2
    rcases List.mem_cons.mp ((heappush_perm rest2 _).mem_iff.mp hwb) with h | h
    · rw [h, weigh_boxes_boxes]
      exact combine_boxes_sorted _ _
    · exact hsorted wb (perm1.mem_iff.mp (List.mem_cons_of_mem r1
        (perm2.mem_iff.mp (List.mem_cons_of_mem r2 h))))

/-- Witness for C6: the seeded set for a weight-5 article with 2 boxes, and one
loop iteration on a concrete two-entry heap. -/
theorem ldm_heap_sorted_invariant_witness :
    List.Sorted boxGE (seedBoxes 2 ⟨5⟩) ∧
    (∀ wb ∈ heappush []
        (weigh_boxes (combine_boxes
          (⟨-4, [⟨[⟨4⟩], 4⟩, ⟨[], 0⟩]⟩ : WeighedBoxes).boxes
          (⟨-3, [⟨[⟨3⟩], 3⟩, ⟨[], 0⟩]⟩ : WeighedBoxes).boxes)),
      List.Sorted boxGE wb.boxes) :=
  ⟨ldm_heap_sorted_invariant.1 2 (by decide) ⟨5⟩ (by decide),
   ldm_heap_sorted_invariant.2
     [⟨-4, [⟨[⟨4⟩], 4⟩, ⟨[], 0⟩]⟩, ⟨-3, [⟨[⟨3⟩], 3⟩, ⟨[], 0⟩]⟩]
     ⟨-4, [⟨[⟨4⟩], 4⟩, ⟨[], 0⟩]⟩ [⟨-3, [⟨[⟨3⟩], 3⟩, ⟨[], 0⟩]⟩]
     ⟨-3, [⟨[⟨3⟩], 3⟩, ⟨[], 0⟩]⟩ []
     (by decide) (by decide) (by decide)⟩

/-- C7: with an empty article list, `pack` succeeds for every container count,
returning `toNat`-many empty boxes; in particular for every count of at least 1
it returns exactly that many boxes, each holding no articles and having total
weight 0. -/
theorem pack_empty_articles (n : Int) :
    pack ([] : List Article) n = .ok (List.replicate n.toNat (Box.ofItems [])) ∧
    (1 ≤ n →
      ((List.replicate n.toNat (Box.ofItems [])).length : Int) = n ∧
      ∀ b ∈ List.replicate n.toNat (Box.ofItems []),
        b.box_items = [] ∧ b.total_weight_in_grams = 0) := by
  constructor
  · rw [pack, if_pos rfl]
  · intro hn
    refine ⟨?_, ?_⟩
    · rw [List.length_replicate]
      omega
    · intro b hb
      rw [(List.mem_replicate.mp hb).2]
      exact ⟨rfl, rfl⟩

/-- Witness for C7 at container count 3. -/
theorem pack_empty_articles_witness :
    pack ([] : List Article) 3 = .ok (List.replicate (Int.toNat 3) (Box.ofItems [])) ∧
    ((List.replicate (Int.toNat 3) (Box.ofItems [])).length : Int) = 3 ∧
    ∀ b ∈ List.replicate (Int.toNat 3) (Box.ofItems []),
      b.box_items = [] ∧ b.total_weight_in_grams = 0 :=
  ⟨(pack_empty_articles 3).1, (pack_empty_articles 3).2 (by decide)⟩

/-- C8: `Box.combine` returns a new box whose items are the concatenation of the
inputs' items and whose total weight is the sum of the inputs' totals (for boxes
with consistent cached weights, as every box built by this program has); the
embedding is pure, so the operands are values that the call cannot mutate. -/
theorem combine_spec (a b : Box) (ha : WFBox a) (hb : WFBox b) :
    (Box.combine a b).box_items = a.box_items ++ b.box_items ∧
    (Box.combine a b).total_weight_in_grams =
      a.total_weight_in_grams + b.total_weight_in_grams :=
  ⟨combine_box_items a b, combine_total ha hb⟩

/-- Witness for C8 at two concrete one-article boxes. -/
theorem combine_spec_witness :
    (Box.combine ⟨[⟨1⟩], 1⟩ ⟨[⟨2⟩], 2⟩).box_items = [⟨1⟩] ++ [⟨2⟩] ∧
    (Box.combine ⟨[⟨1⟩], 1⟩ ⟨[⟨2⟩], 2⟩).total_weight_in_grams = 1 + 2 :=
  combine_spec ⟨[⟨1⟩], 1⟩ ⟨[⟨2⟩], 2⟩ rfl rfl

/-- C9: constructing an article with non-positive weight fails with the
invalid-weight error; with positive weight it succeeds and the returned value
exposes exactly that weight (the embedding's values are immutable, so it is
never mutated afterwards). -/
theorem mkArticle_spec (w : Int) :
    (w ≤ 0 → mkArticle w = .error (.invalidArticleWeight w)) ∧
    (0 < w → mkArticle w = .ok ⟨w⟩ ∧
      ∀ a, mkArticle w = .ok a → a.weight_in_grams = w) := by
  constructor
  · intro hw
    rw [mkArticle, if_neg (by omega)]
  · intro hw
    rw [mkArticle, if_pos (by omega)]
    refine ⟨rfl, ?_⟩
    intro a ha
    injection ha with h
    rw [← h]

/-- Witness for C9 at weights -1 and 5. -/
theorem mkArticle_spec_witness :
    mkArticle (-1) = .error (.invalidArticleWeight (-1)) ∧
    (mkArticle 5 = .ok ⟨5⟩ ∧ ∀ a, mkArticle 5 = .ok a → a.weight_in_grams = 5) :=
  ⟨(mkArticle_spec (-1)).1 (by decide), (mkArticle_spec 5).2 (by decide)⟩

/-- C10: for every non-empty list of articles all of positive weight and every
container count of at least 1, the boxes returned by `pack` are sorted by total
weight in non-increasing (descending) order. -/
theorem pack_sorted_desc (articles : List Article) (n : Int)
    (hne : articles ≠ []) (hw : ∀ a ∈ articles, 0 < a.weight_in_grams)
    (hn : 1 ≤ n) :
    ∃ bs, pack articles n = .ok bs ∧ List.Sorted boxGE bs := by
  obtain ⟨bs, hok, _, _, hsorted, _⟩ := pack_ok_spec articles n hw hn
  exact ⟨bs, hok, hsorted⟩

/-- Witness for C10 at articles of weights 7, 1, 3 with container count 2. -/
theorem pack_sorted_desc_witness :
    ∃ bs, pack [(⟨7⟩ : Article), ⟨1⟩, ⟨3⟩] 2 = .ok bs ∧ List.Sorted boxGE bs :=
  pack_sorted_desc [⟨7⟩, ⟨1⟩, ⟨3⟩] 2 (by decide) (by decide) (by decide)
